import Mathlib

/-!
Verification of the hn-client background synchronization subsystem.

Shallow embedding of the Go sources:
  server/sse (Broker, Publish, eventsAfter),
  server/worker (Poller.poll, Fetcher, Ranker.computePeriod),
  server/store (SwapRanks, UpsertStory, UpsertComment, UpsertArticle,
                GetCommentTree, pruneDeleted).

Machine integers are modelled as Nat/Int; SQL tables as association
lists keyed by their primary key; time.Now and the upstream HN client
are explicit parameters.
-/

namespace HNClient

/-! ## Event broker (server/sse, src/unnamed/part_013) -/

/-- Event mirrors sse.Event: a uint64 ID, a type tag and a payload.
The ID is modelled as Nat; IDs assigned by the broker start at 1, so
the uint64 subtraction `oldest-1` in eventsAfter agrees with Nat
truncated subtraction on all broker-assigned IDs. -/
structure Event where
  id : Nat
  eventType : String
  data : String
deriving DecidableEq

/-- Broker mirrors sse.Broker without the subscriber channel set (the
fan-out to live channels is concurrent I/O outside this embedding; the
ring buffer and ID counter are the state the claims are about). -/
structure Broker where
  ring : List Event
  ringSize : Nat
  nextID : Nat
deriving DecidableEq

/-- NewBroker: empty ring, counter starting at 1. -/
def newBroker (ringSize : Nat) : Broker :=
  { ring := [], ringSize := ringSize, nextID := 1 }

/-- Publish: assign the next ID, evict the oldest ring entry when the
ring is full, append the new event (sse.Broker.Publish). -/
def publish (b : Broker) (eventType data : String) : Broker :=
  let evt : Event := { id := b.nextID, eventType := eventType, data := data }
  let ring := if b.ring.length ≥ b.ringSize then b.ring.drop 1 else b.ring
  { b with nextID := b.nextID + 1, ring := ring ++ [evt] }

/-- Run a sequence of Publish calls left to right. -/
def publishAll (b : Broker) (msgs : List (String × String)) : Broker :=
  msgs.foldl (fun b m => publish b m.1 m.2) b

/-- eventsAfter mirrors sse.Broker.eventsAfter: empty ring replays
nothing with ok=true; lastID below oldest.ID - 1 signals resync with
ok=false; otherwise all buffered events with ID above lastID. -/
def eventsAfter (b : Broker) (lastID : Nat) : List Event × Bool :=
  match b.ring with
  | [] => ([], true)
  | oldest :: _ =>
    if lastID < oldest.id - 1 then ([], false)
    else (b.ring.filter (fun e => lastID < e.id), true)

/-- Chronological event list a broker assigns to msgs, first ID k. -/
def eventsFrom (k : Nat) : List (String × String) → List Event
  | [] => []
  | m :: ms => { id := k, eventType := m.1, data := m.2 } :: eventsFrom (k + 1) ms

/-- A broker state reachable from NewBroker by Publish calls, with the
positive capacity NewBroker is actually invoked with. -/
def Reachable (b : Broker) : Prop :=
  ∃ cap msgs, 1 ≤ cap ∧ b = publishAll (newBroker cap) msgs

theorem eventsFrom_append (k : Nat) (l l' : List (String × String)) :
    eventsFrom k (l ++ l') = eventsFrom k l ++ eventsFrom (k + l.length) l' := by
  induction l generalizing k with
  | nil => simp [eventsFrom]
  | cons m ms ih =>
    simp only [List.cons_append, eventsFrom, List.append_eq, ih, List.length_cons]
    rw [show k + (ms.length + 1) = k + 1 + ms.length from by omega]

theorem eventsFrom_length (k : Nat) (l : List (String × String)) :
    (eventsFrom k l).length = l.length := by
  induction l generalizing k with
  | nil => rfl
  | cons m ms ih => simp [eventsFrom, ih]

theorem eventsFrom_id_ge (k : Nat) (l : List (String × String)) :
    ∀ e ∈ eventsFrom k l, k ≤ e.id := by
  induction l generalizing k with
  | nil => intro e he; cases he
  | cons m ms ih =>
    intro e he
    rcases List.mem_cons.mp he with h | h
    · subst h; exact Nat.le_refl k
    · exact Nat.le_of_succ_le (ih (k + 1) e h)

theorem eventsFrom_ids (k : Nat) (l : List (String × String)) :
    (eventsFrom k l).map Event.id = List.range' k l.length := by
  induction l generalizing k with
  | nil => rfl
  | cons m ms ih => simp [eventsFrom, List.range'_succ, ih]

theorem eventsFrom_pairwise (k : Nat) (l : List (String × String)) :
    (eventsFrom k l).Pairwise (fun a c => a.id < c.id) := by
  induction l generalizing k with
  | nil => exact List.Pairwise.nil
  | cons m ms ih =>
    refine List.Pairwise.cons ?_ (ih (k + 1))
    intro e he
    exact Nat.lt_of_lt_of_le (Nat.lt_succ_self k) (eventsFrom_id_ge (k + 1) ms e he)

theorem publishAll_append_single (b : Broker) (msgs : List (String × String))
    (m : String × String) :
    publishAll b (msgs ++ [m]) = publish (publishAll b msgs) m.1 m.2 := by
  simp [publishAll, List.foldl_append]

/-- State of a broker after publishing msgs on a fresh broker: the
counter is msgs.length + 1 and the ring holds the newest at-most-cap
events of the full chronology (oldest evicted first). -/
theorem publishAll_run (cap : Nat) (hcap : 1 ≤ cap) (msgs : List (String × String)) :
    publishAll (newBroker cap) msgs =
      { ring := (eventsFrom 1 msgs).drop (msgs.length - cap),
        ringSize := cap, nextID := msgs.length + 1 } := by
  induction msgs using List.reverseRecOn with
  | nil => simp [publishAll, newBroker, eventsFrom]
  | append_singleton ms m ih =>
    rw [publishAll_append_single, ih]
    have hlen : (eventsFrom 1 ms).length = ms.length := eventsFrom_length 1 ms
    have hev : eventsFrom 1 (ms ++ [m]) =
        eventsFrom 1 ms ++ [{ id := ms.length + 1, eventType := m.1, data := m.2 }] := by
      rw [eventsFrom_append]
      simp [eventsFrom, Nat.add_comm]
    by_cases hfull : ms.length ≥ cap
    · have hcond : ((eventsFrom 1 ms).drop (ms.length - cap)).length ≥ cap := by
        rw [List.length_drop, hlen]
        omega
      simp only [publish, hcond, if_pos, ge_iff_le, hev]
      have hdrop : ((eventsFrom 1 ms).drop (ms.length - cap)).drop 1 =
          (eventsFrom 1 ms).drop (ms.length + 1 - cap) := by
        rw [List.drop_drop]
        congr 1
        omega
      have hd2 : (eventsFrom 1 ms ++
            [({ id := ms.length + 1, eventType := m.1, data := m.2 } : Event)]).drop
              (ms.length + 1 - cap) =
          (eventsFrom 1 ms).drop (ms.length + 1 - cap) ++
            [({ id := ms.length + 1, eventType := m.1, data := m.2 } : Event)] := by
        refine List.drop_append_of_le_length ?_
        rw [hlen]; omega
      simp only [List.length_append, List.length_singleton, hd2, hdrop]
    · have hcond : ¬ ((eventsFrom 1 ms).drop (ms.length - cap)).length ≥ cap := by
        rw [List.length_drop, hlen]
        omega
      simp only [publish, hcond, if_neg, ge_iff_le, hev]
      have h0 : ms.length - cap = 0 := by omega
      have h1 : ms.length + 1 - cap = 0 := by omega
      simp [h0, h1, List.length_append]

/-- Well-formedness: ring IDs strictly ascending and at least 1. -/
def BrokerWF (b : Broker) : Prop :=
  b.ring.Pairwise (fun a c => a.id < c.id) ∧ ∀ e ∈ b.ring, 1 ≤ e.id

theorem reachable_wf (b : Broker) (hb : Reachable b) : BrokerWF b := by
  obtain ⟨cap, msgs, hcap, rfl⟩ := hb
  rw [publishAll_run cap hcap msgs]
  constructor
  · exact (eventsFrom_pairwise 1 msgs).sublist (List.drop_sublist _ _)
  · intro e he
    exact eventsFrom_id_ge 1 msgs e ((List.drop_sublist _ _).mem he)

/-- C7: across every sequence of Publish calls on one broker, event IDs
are assigned consecutively starting at 1 (strictly increasing, never
reused), and after every publish the ring buffer holds the newest
at-most-capacity events of the chronology, evicting the oldest first
when full. -/
theorem C7_broker_publish_invariants (cap : Nat) (hcap : 1 ≤ cap)
    (msgs : List (String × String)) :
    (publishAll (newBroker cap) msgs).nextID = msgs.length + 1 ∧
    (eventsFrom 1 msgs).map Event.id = List.range' 1 msgs.length ∧
    (publishAll (newBroker cap) msgs).ring =
      (eventsFrom 1 msgs).drop (msgs.length - cap) ∧
    (publishAll (newBroker cap) msgs).ring.length = min msgs.length cap ∧
    (publishAll (newBroker cap) msgs).ring.Pairwise (fun a c => a.id < c.id) := by
  rw [publishAll_run cap hcap msgs]
  refine ⟨rfl, eventsFrom_ids 1 msgs, rfl, ?_, ?_⟩
  · rw [List.length_drop, eventsFrom_length]
    omega
  · exact (eventsFrom_pairwise 1 msgs).sublist (List.drop_sublist _ _)

theorem C7_broker_publish_invariants_witness :
    (publishAll (newBroker 3)
      [("a", "1"), ("b", "2"), ("c", "3"), ("d", "4")]).nextID = 5 ∧
    (publishAll (newBroker 3)
      [("a", "1"), ("b", "2"), ("c", "3"), ("d", "4")]).ring.length = 3 := by
  have h := C7_broker_publish_invariants 3 (by decide)
    [("a", "1"), ("b", "2"), ("c", "3"), ("d", "4")]
  refine ⟨?_, ?_⟩
  · rw [h.1]; decide
  · rw [h.2.2.2.1]; decide

/-- C2: for every reachable broker state and every lastID, eventsAfter
returns (empty, true) on an empty ring; (nil, false) when lastID is
strictly below the oldest buffered ID minus one; and otherwise exactly
the buffered events with ID above lastID, in ascending ID order, with
ok = true. -/
theorem C2_eventsAfter_spec (b : Broker) (hb : Reachable b) (lastID : Nat) :
    (b.ring = [] → eventsAfter b lastID = ([], true)) ∧
    (∀ oldest rest, b.ring = oldest :: rest → lastID < oldest.id - 1 →
      eventsAfter b lastID = ([], false)) ∧
    (∀ oldest rest, b.ring = oldest :: rest → ¬ lastID < oldest.id - 1 →
      (eventsAfter b lastID).2 = true ∧
      (∀ e, e ∈ (eventsAfter b lastID).1 ↔ e ∈ b.ring ∧ lastID < e.id) ∧
      (eventsAfter b lastID).1.Pairwise (fun a c => a.id < c.id)) := by
  obtain ⟨hpw, _⟩ := reachable_wf b hb
  refine ⟨?_, ?_, ?_⟩
  · intro h
    simp [eventsAfter, h]
  · intro oldest rest hr hlt
    simp only [eventsAfter, hr, if_pos hlt]
  · intro oldest rest hr hge
    simp only [eventsAfter, hr, if_neg hge]
    refine ⟨by trivial, ?_, ?_⟩
    · intro e
      rw [← hr]
      simp [List.mem_filter]
    · rw [← hr]
      exact hpw.sublist (List.filter_sublist _)

theorem C2_eventsAfter_spec_witness :
    (eventsAfter (publishAll (newBroker 3)
        [("a", "1"), ("b", "2"), ("c", "3"), ("d", "4")]) 1).2 = true ∧
    ({ id := 4, eventType := "d", data := "4" } : Event) ∈
      (eventsAfter (publishAll (newBroker 3)
        [("a", "1"), ("b", "2"), ("c", "3"), ("d", "4")]) 1).1 := by
  have h := C2_eventsAfter_spec
    (publishAll (newBroker 3) [("a", "1"), ("b", "2"), ("c", "3"), ("d", "4")])
    ⟨3, [("a", "1"), ("b", "2"), ("c", "3"), ("d", "4")], by decide, rfl⟩ 1
  have h3 := h.2.2 ({ id := 2, eventType := "b", data := "2" })
    [{ id := 3, eventType := "c", data := "3" },
     { id := 4, eventType := "d", data := "4" }] (by decide) (by decide)
  exact ⟨h3.1, (h3.2.1 _).mpr ⟨by decide, by decide⟩⟩

/-! ## Data model (server/hn/types.go, server/store schema and queries)

Go reserved-word fields are renamed: Item.By and Item.Type become
author and itemType. -/

/-- HNItem mirrors hn.Item. -/
structure HNItem where
  id : Int
  itemType : String
  author : String
  time : Int
  text : String
  url : String
  title : String
  score : Int
  descendants : Int
  kids : List Int
  parent : Int
  dead : Bool
  deleted : Bool
deriving DecidableEq

/-- Story mirrors a row of the stories table. -/
structure Story where
  id : Int
  title : String
  url : Option String
  text : Option String
  score : Int
  author : String
  time : Int
  descendants : Int
  itemType : String
  fetchedAt : Int
  rank : Option Int
  dead : Bool
deriving DecidableEq

/-- Comment mirrors a row of the comments table. -/
structure Comment where
  id : Int
  storyID : Int
  parentID : Option Int
  author : Option String
  text : Option String
  time : Int
  dead : Bool
  deleted : Bool
  fetchedAt : Int
deriving DecidableEq

/-- Article mirrors a row of the articles table. -/
structure Article where
  storyID : Int
  content : Option String
  title : Option String
  excerpt : Option String
  byline : Option String
  extractionFailed : Bool
  fetchedAt : Int
deriving DecidableEq

/-- Ranking mirrors a row of the rankings table; score REAL is ℝ. -/
structure Ranking where
  storyID : Int
  period : String
  score : ℝ
  computedAt : Int

/-- Relational store state: one association list per table, keyed by
the primary key (stories.id, comments.id, articles.story_id). The
rankings table is kept as a separate List Ranking value: its score
column is ℝ (hence not executable), while every stories/comments/
articles operation stays computable. -/
structure DB where
  stories : List Story
  comments : List Comment
  articles : List Article

/-- UpsertStory ON CONFLICT row update: every field from the excluded
row except rank = COALESCE(excluded.rank, stories.rank). -/
def upsertStoryRow (old new : Story) : Story :=
  { new with rank := match new.rank with | some r => some r | none => old.rank }

def upsertStoryList : List Story → Story → List Story
  | [], st => [st]
  | s :: rest, st =>
    if s.id = st.id then upsertStoryRow s st :: rest else s :: upsertStoryList rest st

/-- UpsertStory (stories.sql): insert or conflict-update on id. -/
def upsertStory (db : DB) (st : Story) : DB :=
  { db with stories := upsertStoryList db.stories st }

def upsertCommentList : List Comment → Comment → List Comment
  | [], c => [c]
  | x :: rest, c => if x.id = c.id then c :: rest else x :: upsertCommentList rest c

/-- UpsertComment (part_009): insert or overwrite every field on id conflict. -/
def upsertComment (db : DB) (c : Comment) : DB :=
  { db with comments := upsertCommentList db.comments c }

def upsertArticleList : List Article → Article → List Article
  | [], a => [a]
  | x :: rest, a => if x.storyID = a.storyID then a :: rest else x :: upsertArticleList rest a

/-- UpsertArticle (articles.sql): insert or overwrite every field on
story_id conflict. -/
def upsertArticle (db : DB) (a : Article) : DB :=
  { db with articles := upsertArticleList db.articles a }

/-- GetStoryByID. -/
def getStoryByID (db : DB) (id : Int) : Option Story :=
  db.stories.find? (fun s => s.id = id)

/-- Rank column of the story row with the given id (none when the row
is absent or its rank is NULL). -/
def storyRank (db : DB) (id : Int) : Option Int :=
  (getStoryByID db id).bind Story.rank

/-- CommentExists / CommentStore.Exists: COUNT(*) over comments by id. -/
def commentExistsQ (db : DB) (id : Int) : Bool :=
  db.comments.any (fun c => c.id = id)

/-- GetArticleByStoryID. -/
def getArticleByStoryID (db : DB) (sid : Int) : Option Article :=
  db.articles.find? (fun a => a.storyID = sid)

/-- ClearRanks: UPDATE stories SET rank = NULL. -/
def clearRanks (db : DB) : DB :=
  { db with stories := db.stories.map (fun s => { s with rank := none }) }

/-- SetRank: UPDATE stories SET rank = ? WHERE id = ? (no-op when no
row has the id). -/
def setRank (db : DB) (rank : Int) (id : Int) : DB :=
  { db with stories := db.stories.map (fun s => if s.id = id then { s with rank := some rank } else s) }

/-- RankPair mirrors store.RankPair. -/
structure RankPair where
  id : Int
  rank : Int
deriving DecidableEq

/-- SwapRanks (store, src/unnamed/part_006): clear every rank, then set
the pair ranks, all inside one transaction. -/
def swapRanks (db : DB) (pairs : List RankPair) : DB :=
  pairs.foldl (fun d p => setRank d p.rank p.id) (clearRanks db)

/-! ## Fetcher (server/worker, src/unnamed/part_015)

The upstream client is a parameter: GetItem(id) either fails (UpstreamError),
returns no record, or returns an item. time.Now().Unix() is the
explicit now parameter. -/

/-- storyFromItem mirrors worker.storyFromItem, including the
"[unknown]" author and "story" type defaults and the empty-string to
NULL conversion for url and text. -/
def storyFromItem (item : HNItem) (now : Int) (rank : Option Int) : Story :=
  { id := item.id
    title := item.title
    url := if item.url = "" then none else some item.url
    text := if item.text = "" then none else some item.text
    score := item.score
    author := if item.author = "" then "[unknown]" else item.author
    time := item.time
    descendants := item.descendants
    itemType := if item.itemType = "" then "story" else item.itemType
    fetchedAt := now
    rank := rank
    dead := item.dead }

/-- FetchStory: fetch one item and upsert it; a nil or zero-ID record
from upstream is a no-op, not an error. -/
def fetchStory (up : Int → Except Unit (Option HNItem)) (now : Int)
    (id : Int) (rank : Option Int) (db : DB) : Except Unit DB :=
  match up id with
  | .error e => .error e
  | .ok none => .ok db
  | .ok (some item) =>
    if item.id = 0 then .ok db
    else .ok (upsertStory db (storyFromItem item now rank))

theorem upsertStoryRow_idem (old st : Story) :
    upsertStoryRow (upsertStoryRow old st) st = upsertStoryRow old st := by
  cases hr : st.rank <;> simp [upsertStoryRow, hr]

theorem upsertStoryRow_id (old st : Story) : (upsertStoryRow old st).id = st.id := by
  simp [upsertStoryRow]

theorem upsertStoryRow_self (st : Story) : upsertStoryRow st st = st := by
  cases st with
  | mk i t u x sc a ti d ty f r dd => cases r <;> rfl

theorem upsertStoryList_idem (l : List Story) (st : Story) :
    upsertStoryList (upsertStoryList l st) st = upsertStoryList l st := by
  induction l with
  | nil =>
    simp [upsertStoryList, upsertStoryRow_self]
  | cons s rest ih =>
    by_cases h : s.id = st.id
    · simp [upsertStoryList, h, upsertStoryRow_id, upsertStoryRow_idem]
    · simp [upsertStoryList, h, ih]

/-- C8: fetching the same item twice against a fixed upstream response
leaves the store exactly as one fetch does, and an absent upstream
record makes fetchStory a no-op rather than an error. -/
theorem C8_fetchStory_idempotent (up : Int → Except Unit (Option HNItem))
    (now : Int) (id : Int) (rank : Option Int) (db : DB) :
    ((fetchStory up now id rank db).bind (fetchStory up now id rank) =
      fetchStory up now id rank db) ∧
    (up id = .ok none → fetchStory up now id rank db = .ok db) := by
  constructor
  · cases hup : up id with
    | error e => simp [fetchStory, hup, Except.bind]
    | ok o =>
      cases o with
      | none => simp [fetchStory, hup, Except.bind]
      | some item =>
        by_cases hz : item.id = 0
        · simp [fetchStory, hup, hz, Except.bind]
        · simp [fetchStory, hup, hz, Except.bind, upsertStory,
            upsertStoryList_idem]
  · intro hup
    simp [fetchStory, hup]

theorem C8_fetchStory_idempotent_witness :
    (fetchStory (fun _ => .ok none) 7 42 none
      { stories := [], comments := [], articles := [] } =
     .ok { stories := [], comments := [], articles := [] }) := by
  exact (C8_fetchStory_idempotent (fun _ => .ok none) 7 42 none
    { stories := [], comments := [], articles := [] }).2 rfl

/-- ExtractedArticle mirrors readability.Article. -/
structure ExtractedArticle where
  title : String
  byline : String
  content : String
  excerpt : String
deriving DecidableEq

/-- ExtractArticle (worker.Fetcher.ExtractArticle): the extraction
result is a parameter; on failure an extraction-failed Article row is
upserted, on success the extracted fields are upserted with
extraction_failed=false. The function returns the new store and no
error in either case (failures are cached state, not surfaced). -/
def extractArticle (result : Except Unit ExtractedArticle) (now : Int)
    (storyID : Int) (db : DB) : DB :=
  match result with
  | .error _ =>
    upsertArticle db
      { storyID := storyID, content := none, title := none, excerpt := none,
        byline := none, extractionFailed := true, fetchedAt := now }
  | .ok a =>
    upsertArticle db
      { storyID := storyID, content := some a.content, title := some a.title,
        excerpt := some a.excerpt, byline := some a.byline,
        extractionFailed := false, fetchedAt := now }

theorem getArticle_upsert (db : DB) (a : Article) :
    getArticleByStoryID (upsertArticle db a) a.storyID = some a := by
  show (upsertArticleList db.articles a).find? (fun x => x.storyID = a.storyID) = some a
  induction db.articles with
  | nil => simp [upsertArticleList]
  | cons x rest ih =>
    by_cases h : x.storyID = a.storyID
    · simp [upsertArticleList, h]
    · simp [upsertArticleList, h, List.find?, ih]

/-- C9: after every article extraction attempt an Article row for the
story is present carrying fetched_at=now; extraction_failed is true
exactly when extraction failed; on success the extracted
content/title/excerpt/byline are stored. The operation never surfaces
an error (extractArticle is total into DB). -/
theorem C9_extractArticle_caches_failure (result : Except Unit ExtractedArticle)
    (now : Int) (storyID : Int) (db : DB) :
    ∃ row, getArticleByStoryID (extractArticle result now storyID db) storyID = some row ∧
      row.fetchedAt = now ∧
      (∀ e, result = .error e → row.extractionFailed = true) ∧
      (∀ a, result = .ok a → row.extractionFailed = false ∧
        row.content = some a.content ∧ row.title = some a.title ∧
        row.excerpt = some a.excerpt ∧ row.byline = some a.byline) := by
  cases result with
  | error e =>
    refine ⟨_, getArticle_upsert db _, rfl, ?_, ?_⟩
    · intro _ _; rfl
    · intro a ha; cases ha
  | ok a =>
    refine ⟨_, getArticle_upsert db _, rfl, ?_, ?_⟩
    · intro e he; cases he
    · intro a' ha'
      injection ha' with h
      subst h
      exact ⟨rfl, rfl, rfl, rfl, rfl⟩

theorem C9_extractArticle_caches_failure_witness :
    ∃ row, getArticleByStoryID
        (extractArticle (.error ()) 5 9
          { stories := [], comments := [], articles := [] }) 9 =
        some row ∧ row.extractionFailed = true := by
  obtain ⟨row, hfind, _, hfail, _⟩ :=
    C9_extractArticle_caches_failure (.error ()) 5 9
      { stories := [], comments := [], articles := [] }
  exact ⟨row, hfind, hfail () rfl⟩

/-! ## Ranker (server/worker/ranker.go) -/

/-- ListStoriesByTimeRange: time >= from AND time < to, ORDER BY time
DESC (sort algorithm of the SQL engine modelled as insertion sort; the
claims only depend on the multiset of rows). -/
def listStoriesByTimeRange (db : DB) (fromTime toTime : Int) : List Story :=
  List.insertionSort (fun a b => b.time ≤ a.time)
    (db.stories.filter (fun s => fromTime ≤ s.time ∧ s.time < toTime))

/-- Age in hours, float64(now-s.Time)/3600.0 (float64 modelled as ℝ). -/
noncomputable def ageHours (now time : Int) : ℝ := ((now - time : Int) : ℝ) / 3600

/-- Decay formula float64(s.Score-1) / math.Pow(ageHours+2, 1.5). -/
noncomputable def decayScore (score : Int) (age : ℝ) : ℝ :=
  ((score : ℝ) - 1) / (age + 2) ^ (1.5 : ℝ)

/-- Per-story score of Ranker.computePeriod: raw score for
useRawScore=true (the "yesterday" period), decayed otherwise. -/
noncomputable def periodScore (useRawScore : Bool) (now : Int) (s : Story) : ℝ :=
  if useRawScore then (s.score : ℝ) else decayScore s.score (ageHours now s.time)

/-- Ranker.computePeriod: list the stories of the window, then replace
every Ranking row of the period (delete old, insert fresh) in one
transaction. Reads db.stories, rewrites the rankings table. -/
noncomputable def computePeriod (db : DB) (rankings : List Ranking) (period : String)
    (fromTime toTime now : Int) (useRawScore : Bool) : List Ranking :=
  let stories := listStoriesByTimeRange db fromTime toTime
  rankings.filter (fun r => r.period ≠ period) ++
    stories.map (fun s =>
      { storyID := s.id, period := period,
        score := periodScore useRawScore now s, computedAt := now })

/-- Ranker.ComputeAll: day (24h window, decayed), yesterday (24h-48h
window, raw scores), week (7d window, decayed). -/
noncomputable def computeAll (db : DB) (rankings : List Ranking) (now : Int) :
    List Ranking :=
  let dayAgo := now - 86400
  let r1 := computePeriod db rankings "day" dayAgo now now false
  let twoDaysAgo := now - 172800
  let r2 := computePeriod db r1 "yesterday" twoDaysAgo dayAgo now true
  let weekAgo := now - 604800
  computePeriod db r2 "week" weekAgo now now false

/-- C6 fails as stated: with rawScore = 1 the decayed score is 0 at
every age, so the score is not strictly decreasing in ageHours for
every fixed rawScore. -/
theorem C6_decay_not_strictly_decreasing_counterexample :
    ¬ (∀ (raw : Int) (a b : ℝ), 0 ≤ a → a < b →
        decayScore raw b < decayScore raw a) := by
  intro h
  have h1 := h 1 0 1 le_rfl zero_lt_one
  have e0 : decayScore 1 0 = 0 := by simp [decayScore]
  have e1 : decayScore 1 1 = 0 := by simp [decayScore]
  rw [e0, e1] at h1
  exact lt_irrefl 0 h1

/-- C6 (amended): for fixed rawScore at least 2 (positive numerator)
the day/week decayed score is strictly decreasing in ageHours over
nonnegative ages, and every "yesterday" ranking row carries exactly the
raw score of its story. -/
theorem C6_decay_monotone_and_yesterday_raw :
    (∀ (raw : Int) (a b : ℝ), 2 ≤ raw → 0 ≤ a → a < b →
      decayScore raw b < decayScore raw a) ∧
    (∀ (db : DB) (rankings : List Ranking) (fromTime toTime now : Int) (row : Ranking),
      row ∈ computePeriod db rankings "yesterday" fromTime toTime now true →
      row.period = "yesterday" →
      ∃ s ∈ listStoriesByTimeRange db fromTime toTime,
        row.storyID = s.id ∧ row.score = (s.score : ℝ)) := by
  constructor
  · intro raw a b h2 ha hab
    have h2r : (2 : ℝ) ≤ (raw : ℝ) := by exact_mod_cast h2
    have hnum : (0 : ℝ) < (raw : ℝ) - 1 := by linarith
    have ha2 : (0 : ℝ) < a + 2 := by linarith
    have hlt : (a + 2) ^ (1.5 : ℝ) < (b + 2) ^ (1.5 : ℝ) :=
      Real.rpow_lt_rpow (by linarith) (by linarith) (by norm_num)
    have hpos : (0 : ℝ) < (a + 2) ^ (1.5 : ℝ) := Real.rpow_pos_of_pos ha2 _
    exact div_lt_div_of_pos_left hnum hpos hlt
  · intro db rankings fromTime toTime now row hrow hp
    rcases List.mem_append.mp hrow with hold | hnew
    · exact absurd hp (by simpa using (List.mem_filter.mp hold).2)
    · obtain ⟨s, hs, hrow_eq⟩ := List.mem_map.mp hnew
      refine ⟨s, hs, ?_, ?_⟩
      · rw [← hrow_eq]
      · rw [← hrow_eq]
        rfl

theorem C6_decay_monotone_and_yesterday_raw_witness :
    decayScore 100 1 < decayScore 100 0 ∧
    (∃ s ∈ listStoriesByTimeRange
        { stories := [{ id := 3, title := "t", url := none, text := none,
                        score := 7, author := "a", time := 5, descendants := 0,
                        itemType := "story", fetchedAt := 0, rank := none,
                        dead := false }],
          comments := [], articles := [] } 0 10,
      (3 : Int) = s.id ∧ (7 : ℝ) = (s.score : ℝ)) := by
  have h := C6_decay_monotone_and_yesterday_raw
  refine ⟨h.1 100 0 1 (by decide) le_rfl zero_lt_one, ?_⟩
  have h2 := h.2
    { stories := [{ id := 3, title := "t", url := none, text := none,
                    score := 7, author := "a", time := 5, descendants := 0,
                    itemType := "story", fetchedAt := 0, rank := none,
                    dead := false }],
      comments := [], articles := [] } [] 0 10 9
    { storyID := 3, period := "yesterday", score := (7 : ℝ), computedAt := 9 }
    (by simp [computePeriod, listStoriesByTimeRange, periodScore]) rfl
  obtain ⟨s, hs, hid, hscore⟩ := h2
  exact ⟨s, hs, hid, hscore⟩

/-! ## Comment tree reconstruction (server/store/comments.go)

GetCommentTree loads the flat rows of a story, builds a forest by
attaching each row to the row its parent_id names (the byID map),
promotes rows with a missing parent to roots, and prunes deleted
leaves. comments.id is the primary key of the table, so the byID map
lookup is row-id equality. -/

/-- CommentNode tree: a row and its nested children. -/
inductive CommentTree where
  | node (row : Comment) (children : List CommentTree)

def CommentTree.row : CommentTree → Comment
  | .node r _ => r

def CommentTree.children : CommentTree → List CommentTree
  | .node _ cs => cs

/-- Rows kept as roots: parent_id NULL, or parent_id naming no row of
the set (the orphan-promotion branch of the build loop). -/
def rootsOf (rows : List Comment) : List Comment :=
  rows.filter (fun n =>
    match n.parentID with
    | none => true
    | some p => !(rows.any (fun q => q.id = p)))

/-- Children attached to the row with the given id by the build loop. -/
def childrenOf (rows : List Comment) (id : Int) : List Comment :=
  rows.filter (fun m => m.parentID = some id)

/-- Subtree below one row. The children relation of a keyed row set is
a forest away from cycles, so fuel rows.length is enough for every
node reachable from a root; the fuel only bounds unreachable
parent-cycles, which the Go structure never walks either. -/
def buildNode (rows : List Comment) : Nat → Comment → CommentTree
  | 0, r => .node r []
  | fuel + 1, r => .node r ((childrenOf rows r.id).map (buildNode rows fuel))

/-- Forest produced by the build loop of GetCommentTree. -/
def buildForest (rows : List Comment) : List CommentTree :=
  (rootsOf rows).map (buildNode rows rows.length)

/-- pruneDeleted removes deleted comments that have no children left
after recursively pruning their subtrees. -/
def pruneDeleted : List CommentTree → List CommentTree
  | [] => []
  | .node r cs :: rest =>
    if r.deleted && (pruneDeleted cs).isEmpty then pruneDeleted rest
    else .node r (pruneDeleted cs) :: pruneDeleted rest
termination_by l => sizeOf l
decreasing_by all_goals (simp_wf; try omega)

/-- GetCommentTree on a flat row set: build the forest, prune deleted
leaves. -/
def getCommentTree (rows : List Comment) : List CommentTree :=
  pruneDeleted (buildForest rows)

/-- Every subtree occurring in a forest (the forest itself included). -/
def subtreesList : List CommentTree → List CommentTree
  | [] => []
  | .node r cs :: rest => .node r cs :: (subtreesList cs ++ subtreesList rest)
termination_by l => sizeOf l
decreasing_by all_goals (simp_wf; try omega)

/-- Orphan test of the claim: parent_id names a row not in the set. -/
def orphanRow (rows : List Comment) (r : Comment) : Bool :=
  match r.parentID with
  | none => false
  | some p => !(rows.any (fun q => q.id = p))

theorem pruneDeleted_nil : pruneDeleted [] = [] := by
  rw [pruneDeleted]

theorem pruneDeleted_cons (r : Comment) (cs rest : List CommentTree) :
    pruneDeleted (CommentTree.node r cs :: rest) =
      if r.deleted && (pruneDeleted cs).isEmpty then pruneDeleted rest
      else CommentTree.node r (pruneDeleted cs) :: pruneDeleted rest := by
  rw [pruneDeleted]

theorem subtreesList_nil : subtreesList [] = [] := by
  rw [subtreesList]

theorem subtreesList_cons (r : Comment) (cs rest : List CommentTree) :
    subtreesList (CommentTree.node r cs :: rest) =
      CommentTree.node r cs :: (subtreesList cs ++ subtreesList rest) := by
  rw [subtreesList]

theorem buildNode_row (rows : List Comment) (fuel : Nat) (r : Comment) :
    (buildNode rows fuel r).row = r := by
  cases fuel <;> rfl

/-- A non-deleted member of a forest survives pruning with its row. -/
theorem prune_keeps_undeleted (forest : List CommentTree) (t : CommentTree)
    (ht : t ∈ forest) (hdel : t.row.deleted = false) :
    ∃ t' ∈ pruneDeleted forest, t'.row = t.row := by
  induction forest with
  | nil => cases ht
  | cons head rest ih =>
    cases head with
    | node r0 cs0 =>
      rw [pruneDeleted_cons]
      rcases List.mem_cons.mp ht with rfl | hmem
      · have hr0 : r0.deleted = false := hdel
        rw [hr0]
        simp only [Bool.false_and, if_neg (by simp : ¬ (false = true))]
        exact ⟨CommentTree.node r0 (pruneDeleted cs0), List.mem_cons_self _ _, rfl⟩
      · obtain ⟨t', ht', hrow⟩ := ih hmem
        by_cases hcond : r0.deleted && (pruneDeleted cs0).isEmpty
        · rw [if_pos hcond]
          exact ⟨t', ht', hrow⟩
        · rw [if_neg hcond]
          exact ⟨t', List.mem_cons_of_mem _ ht', hrow⟩

/-- A forest member survives pruning with its row unless it is deleted
and all of its children are pruned away. -/
theorem prune_keeps_surviving (forest : List CommentTree) (t : CommentTree)
    (ht : t ∈ forest)
    (hkeep : ¬ (t.row.deleted = true ∧ pruneDeleted t.children = [])) :
    ∃ t' ∈ pruneDeleted forest, t'.row = t.row := by
  induction forest with
  | nil => cases ht
  | cons head rest ih =>
    cases head with
    | node r0 cs0 =>
      rw [pruneDeleted_cons]
      rcases List.mem_cons.mp ht with rfl | hmem
      · have hcond : ¬ ((r0.deleted && (pruneDeleted cs0).isEmpty) = true) := by
          intro hc
          rcases Bool.and_eq_true_iff.mp hc with ⟨hd, hemp⟩
          exact hkeep ⟨hd, List.isEmpty_iff.mp hemp⟩
        rw [if_neg hcond]
        exact ⟨CommentTree.node r0 (pruneDeleted cs0), List.mem_cons_self _ _, rfl⟩
      · obtain ⟨t', ht', hrow⟩ := ih hmem
        by_cases hcond : r0.deleted && (pruneDeleted cs0).isEmpty
        · rw [if_pos hcond]
          exact ⟨t', ht', hrow⟩
        · rw [if_neg hcond]
          exact ⟨t', List.mem_cons_of_mem _ ht', hrow⟩

/-- After pruning, no deleted node is left without children (size-bounded
strong induction mirroring the recursion of pruneDeleted). -/
theorem pruned_deleted_has_children (n : Nat) (forest : List CommentTree)
    (hsz : sizeOf forest ≤ n) :
    ∀ t ∈ subtreesList (pruneDeleted forest), t.row.deleted = true → t.children ≠ [] := by
  induction n generalizing forest with
  | zero =>
    cases forest with
    | nil => simp at hsz
    | cons a l => simp [List.cons.sizeOf_spec] at hsz
  | succ n ih =>
    cases forest with
    | nil =>
      intro t ht
      rw [pruneDeleted_nil, subtreesList_nil] at ht
      cases ht
    | cons head rest =>
      cases head with
      | node r0 cs0 =>
        have hszs : sizeOf cs0 ≤ n ∧ sizeOf rest ≤ n := by
          simp only [List.cons.sizeOf_spec, CommentTree.node.sizeOf_spec] at hsz
          omega
        intro t ht hdel
        rw [pruneDeleted_cons] at ht
        by_cases hcond : r0.deleted && (pruneDeleted cs0).isEmpty
        · rw [if_pos hcond] at ht
          exact ih rest hszs.2 t ht hdel
        · rw [if_neg hcond, subtreesList_cons] at ht
          rcases List.mem_cons.mp ht with rfl | hmem
          · intro hempty
            apply hcond
            have hdel' : r0.deleted = true := hdel
            have hempty' : (pruneDeleted cs0).isEmpty = true := by
              have : pruneDeleted cs0 = [] := hempty
              rw [this]
              rfl
            rw [hdel', hempty']
            rfl
          · rcases List.mem_append.mp hmem with hcs | hrest
            · exact ih cs0 hszs.1 t hcs hdel
            · exact ih rest hszs.2 t hrest hdel

/-- A deleted subtree that keeps a pruned child survives pruning as a
placeholder node carrying its pruned children. -/
theorem prune_keeps_placeholder (n : Nat) (forest : List CommentTree)
    (hsz : sizeOf forest ≤ n) :
    ∀ r cs, CommentTree.node r cs ∈ subtreesList forest → r.deleted = true →
      pruneDeleted cs ≠ [] →
      CommentTree.node r (pruneDeleted cs) ∈ subtreesList (pruneDeleted forest) := by
  induction n generalizing forest with
  | zero =>
    cases forest with
    | nil => simp at hsz
    | cons a l => simp [List.cons.sizeOf_spec] at hsz
  | succ n ih =>
    cases forest with
    | nil =>
      intro r cs hmem
      rw [subtreesList_nil] at hmem
      cases hmem
    | cons head rest =>
      cases head with
      | node r0 cs0 =>
        have hszs : sizeOf cs0 ≤ n ∧ sizeOf rest ≤ n := by
          simp only [List.cons.sizeOf_spec, CommentTree.node.sizeOf_spec] at hsz
          omega
        intro r cs hmem hdel hne
        rw [subtreesList_cons] at hmem
        rw [pruneDeleted_cons]
        rcases List.mem_cons.mp hmem with heq | hmem'
        · injection heq with hr hcs
          subst hr
          subst hcs
          have hcond : ¬ ((r.deleted && (pruneDeleted cs).isEmpty) = true) := by
            intro hc
            rcases Bool.and_eq_true_iff.mp hc with ⟨_, hemp⟩
            exact hne (List.isEmpty_iff.mp hemp)
          rw [if_neg hcond, subtreesList_cons]
          exact List.mem_cons_self _ _
        · rcases List.mem_append.mp hmem' with hcs0 | hrest
          · have htarget := ih cs0 hszs.1 r cs hcs0 hdel hne
            by_cases hcond : (r0.deleted && (pruneDeleted cs0).isEmpty) = true
            · rcases Bool.and_eq_true_iff.mp hcond with ⟨_, hemp⟩
              rw [List.isEmpty_iff.mp hemp, subtreesList_nil] at htarget
              cases htarget
            · rw [if_neg hcond, subtreesList_cons]
              exact List.mem_cons_of_mem _ (List.mem_append_left _ htarget)
          · have htarget := ih rest hszs.2 r cs hrest hdel hne
            by_cases hcond : (r0.deleted && (pruneDeleted cs0).isEmpty) = true
            · rw [if_pos hcond]
              exact htarget
            · rw [if_neg hcond, subtreesList_cons]
              exact List.mem_cons_of_mem _ (List.mem_append_right _ htarget)

/-- C4 fails as stated on a deleted orphan with no children: the row
is promoted to a root by the build loop, but pruneDeleted then removes
it, so it does not appear in the returned tree. -/
theorem C4_orphan_root_counterexample :
    ¬ (∀ (rows : List Comment) (r : Comment), r ∈ rows → orphanRow rows r = true →
        ∃ t ∈ getCommentTree rows, t.row = r) := by
  intro h
  obtain ⟨t, ht, _⟩ := h
    [{ id := 1, storyID := 7, parentID := some 99, author := none, text := none,
       time := 0, dead := false, deleted := true, fetchedAt := 0 }]
    { id := 1, storyID := 7, parentID := some 99, author := none, text := none,
      time := 0, dead := false, deleted := true, fetchedAt := 0 }
    (List.mem_singleton.mpr rfl) (by decide)
  rw [show getCommentTree
      [{ id := 1, storyID := 7, parentID := some 99, author := none, text := none,
         time := 0, dead := false, deleted := true, fetchedAt := 0 }] = [] from by
    simp [getCommentTree, buildForest, rootsOf, buildNode, childrenOf,
      pruneDeleted]] at ht
  cases ht

/-- Rows of the C4 scenario: a deleted orphan (parent 99 absent) with
one surviving reply. -/
def c4Orphan : Comment :=
  { id := 1, storyID := 7, parentID := some 99, author := none, text := none,
    time := 0, dead := false, deleted := true, fetchedAt := 0 }

def c4Child : Comment :=
  { id := 2, storyID := 7, parentID := some 1, author := none, text := none,
    time := 1, dead := false, deleted := false, fetchedAt := 0 }

def c4Rows : List Comment := [c4Orphan, c4Child]

/-- C4 (amended): every row whose parent_id names a row not in the set
is promoted to a root by the build loop (never attached below another
node; the reconstruction is total, it cannot fail), and it appears as
a root of the returned tree unless it is deleted and loses all of its
children to the deleted-comment pruning pass, the only way such a row
leaves the returned tree. In particular a non-deleted orphan always
appears, and so does a deleted orphan keeping a pruned child. -/
theorem C4_orphans_promoted (rows : List Comment) (r : Comment)
    (hr : r ∈ rows) (horph : orphanRow rows r = true) :
    r ∈ rootsOf rows ∧
    (¬ (r.deleted = true ∧
        pruneDeleted (buildNode rows rows.length r).children = []) →
      ∃ t ∈ getCommentTree rows, t.row = r) := by
  have hroot : r ∈ rootsOf rows := by
    rw [rootsOf, List.mem_filter]
    refine ⟨hr, ?_⟩
    unfold orphanRow at horph
    cases hp : r.parentID with
    | none => simp
    | some p =>
      rw [hp] at horph
      exact horph
  refine ⟨hroot, ?_⟩
  intro hkeep
  have hmem : buildNode rows rows.length r ∈ buildForest rows :=
    List.mem_map_of_mem _ hroot
  obtain ⟨t', ht', hrow⟩ := prune_keeps_surviving (buildForest rows) _ hmem
    (by rw [buildNode_row]; exact hkeep)
  exact ⟨t', ht', by rw [hrow, buildNode_row]⟩

theorem C4_orphans_promoted_witness :
    ∃ t ∈ getCommentTree c4Rows, t.row = c4Orphan := by
  refine (C4_orphans_promoted c4Rows c4Orphan (by decide) (by decide)).2 ?_
  intro h
  obtain ⟨t', ht', _⟩ := prune_keeps_undeleted
    ((buildNode c4Rows c4Rows.length c4Orphan).children)
    (CommentTree.node c4Child []) (List.mem_cons_self _ _) rfl
  rw [h.2] at ht'
  cases ht'

/-- C5: in every reconstructed comment tree, a deleted comment whose
children were all removed by recursive pruning is itself removed (no
deleted node of the returned tree is childless), and a deleted comment
keeping at least one descendant after pruning survives as a
placeholder node carrying its pruned children. -/
theorem C5_pruneDeleted_spec (rows : List Comment) :
    (∀ t ∈ subtreesList (getCommentTree rows), t.row.deleted = true →
      t.children ≠ []) ∧
    (∀ r cs, CommentTree.node r cs ∈ subtreesList (buildForest rows) →
      r.deleted = true → pruneDeleted cs ≠ [] →
      CommentTree.node r (pruneDeleted cs) ∈ subtreesList (getCommentTree rows)) := by
  constructor
  · exact pruned_deleted_has_children (sizeOf (buildForest rows)) (buildForest rows)
      (Nat.le_refl _)
  · exact prune_keeps_placeholder (sizeOf (buildForest rows)) (buildForest rows)
      (Nat.le_refl _)

theorem C5_pruneDeleted_spec_witness :
    CommentTree.node
        { id := 1, storyID := 7, parentID := none, author := none, text := none,
          time := 0, dead := false, deleted := true, fetchedAt := 0 }
        (pruneDeleted
          [CommentTree.node
            { id := 2, storyID := 7, parentID := some 1, author := none,
              text := none, time := 1, dead := false, deleted := false,
              fetchedAt := 0 } []]) ∈
      subtreesList (getCommentTree
        [{ id := 1, storyID := 7, parentID := none, author := none, text := none,
           time := 0, dead := false, deleted := true, fetchedAt := 0 },
         { id := 2, storyID := 7, parentID := some 1, author := none, text := none,
           time := 1, dead := false, deleted := false, fetchedAt := 0 }]) := by
  refine (C5_pruneDeleted_spec
    [{ id := 1, storyID := 7, parentID := none, author := none, text := none,
       time := 0, dead := false, deleted := true, fetchedAt := 0 },
     { id := 2, storyID := 7, parentID := some 1, author := none, text := none,
       time := 1, dead := false, deleted := false, fetchedAt := 0 }]).2
    { id := 1, storyID := 7, parentID := none, author := none, text := none,
      time := 0, dead := false, deleted := true, fetchedAt := 0 }
    [CommentTree.node
      { id := 2, storyID := 7, parentID := some 1, author := none, text := none,
        time := 1, dead := false, deleted := false, fetchedAt := 0 } []]
    ?_ rfl ?_
  · simp [buildForest, rootsOf, buildNode, childrenOf, subtreesList_cons,
      subtreesList_nil]
  · simp [pruneDeleted]

/-! ## Recursive comment fetch (worker.Fetcher.FetchComments,
src/unnamed/part_015)

GetItems(ids) asks upstream for every id of the batch and yields nil
for per-item failures, so the batch is modelled as kids.map up with
up : Int -> Option HNItem. The walk upserts every returned item and
recurses into its kids; fuel bounds the recursion depth (the Go call
stack); the cancellation check between upserts only cuts a walk short,
the claims below are about uncancelled runs. Besides the new store,
the model returns the list of IDs requested from upstream. -/

/-- Upstream record used by the C3 scenario: comment 2 of story 1. -/
def exCommentItem : HNItem :=
  { id := 2, itemType := "comment", author := "", time := 0, text := "",
    url := "", title := "", score := 0, descendants := 0, kids := [],
    parent := 1, dead := false, deleted := false }

/-- Store already holding comment 2 (a previous fetch of story 1). -/
def exCommentDB : DB :=
  { stories := [],
    comments := [{ id := 2, storyID := 1, parentID := none, author := none,
                   text := none, time := 0, dead := false, deleted := false,
                   fetchedAt := 0 }],
    articles := [] }

/-- CommentNode built from an upstream item inside the walk: parent_id
NULL when the parent is the story itself, empty strings to NULL. -/
def commentFromItem (item : HNItem) (storyID now : Int) : Comment :=
  { id := item.id, storyID := storyID,
    parentID := if item.parent = storyID then none else some item.parent,
    author := if item.author = "" then none else some item.author,
    text := if item.text = "" then none else some item.text,
    time := item.time, dead := item.dead, deleted := item.deleted,
    fetchedAt := now }

mutual

/-- fetchCommentsRecursive: request the whole batch, then walk it. -/
def fetchCommentsRec : Nat → (Int → Option HNItem) → Int → Int → List Int → DB →
    DB × List Int
  | 0, _, _, _, _, db => (db, [])
  | fuel + 1, up, now, storyID, kids, db =>
    let res := walkItems fuel up now storyID (kids.map up) db
    (res.1, kids ++ res.2)
termination_by fuel _ _ _ _ _ => (fuel, 0)

/-- Loop body of fetchCommentsRecursive: skip nil batch entries, upsert
each item, recurse into its kids when it has any. -/
def walkItems : Nat → (Int → Option HNItem) → Int → Int → List (Option HNItem) →
    DB → DB × List Int
  | _, _, _, _, [], db => (db, [])
  | fuel, up, now, storyID, none :: rest, db =>
    walkItems fuel up now storyID rest db
  | fuel, up, now, storyID, some item :: rest, db =>
    let db1 := upsertComment db (commentFromItem item storyID now)
    let res :=
      if item.kids.isEmpty then (db1, ([] : List Int))
      else fetchCommentsRec fuel up now storyID item.kids db1
    let res2 := walkItems fuel up now storyID rest res.1
    (res2.1, res.2 ++ res2.2)
termination_by fuel _ _ _ items _ => (fuel, items.length + 1)

end

/-- FetchComments wrapper: no-op on an empty child list. -/
def fetchComments (fuel : Nat) (up : Int → Option HNItem) (now storyID : Int)
    (kids : List Int) (db : DB) : DB × List Int :=
  if kids.isEmpty then (db, []) else fetchCommentsRec fuel up now storyID kids db

mutual

/-- Store-free account of the IDs the walk requests from upstream. -/
def fetchedIDs : Nat → (Int → Option HNItem) → List Int → List Int
  | 0, _, _ => []
  | fuel + 1, up, kids => kids ++ walkFetched fuel up (kids.map up)
termination_by fuel _ _ => (fuel, 0)

def walkFetched : Nat → (Int → Option HNItem) → List (Option HNItem) → List Int
  | _, _, [] => []
  | fuel, up, none :: rest => walkFetched fuel up rest
  | fuel, up, some item :: rest =>
    (if item.kids.isEmpty then [] else fetchedIDs fuel up item.kids) ++
      walkFetched fuel up rest
termination_by fuel _ items => (fuel, items.length + 1)

end

/-- The requested-ID list of the walk never depends on the store. -/
theorem fetched_spec (fuel : Nat) :
    (∀ (up : Int → Option HNItem) (now storyID : Int) (kids : List Int) (db : DB),
      (fetchCommentsRec fuel up now storyID kids db).2 = fetchedIDs fuel up kids) ∧
    (∀ (up : Int → Option HNItem) (now storyID : Int)
      (items : List (Option HNItem)) (db : DB),
      (walkItems fuel up now storyID items db).2 = walkFetched fuel up items) := by
  induction fuel with
  | zero =>
    have hrec : ∀ (up : Int → Option HNItem) (now storyID : Int) (kids : List Int)
        (db : DB),
        (fetchCommentsRec 0 up now storyID kids db).2 = fetchedIDs 0 up kids := by
      intro up now storyID kids db
      simp [fetchCommentsRec, fetchedIDs]
    refine ⟨hrec, ?_⟩
    intro up now storyID items
    induction items with
    | nil => intro db; simp [walkItems, walkFetched]
    | cons o rest ih =>
      intro db
      cases o with
      | none =>
        simp only [walkItems, walkFetched]
        exact ih db
      | some item =>
        simp only [walkItems, walkFetched]
        by_cases hk : item.kids.isEmpty
        · simp only [if_pos hk]
          rw [ih]
        · simp only [if_neg hk]
          rw [hrec, ih]
  | succ fuel ih =>
    have hrec : ∀ (up : Int → Option HNItem) (now storyID : Int) (kids : List Int)
        (db : DB),
        (fetchCommentsRec (fuel + 1) up now storyID kids db).2 =
          fetchedIDs (fuel + 1) up kids := by
      intro up now storyID kids db
      simp only [fetchCommentsRec, fetchedIDs]
      rw [ih.2]
    refine ⟨hrec, ?_⟩
    intro up now storyID items
    induction items with
    | nil => intro db; simp [walkItems, walkFetched]
    | cons o rest ih2 =>
      intro db
      cases o with
      | none =>
        simp only [walkItems, walkFetched]
        exact ih2 db
      | some item =>
        simp only [walkItems, walkFetched]
        by_cases hk : item.kids.isEmpty
        · simp only [if_pos hk]
          rw [ih2]
        · simp only [if_neg hk]
          rw [hrec, ih2]

/-- C3 fails as stated: the walk consults no existence probe, so a
comment ID already present in the store (here id 2 of story 1) is
requested from upstream again on a re-fetch. -/
theorem C3_no_existence_probe_counterexample :
    ¬ (∀ (fuel : Nat) (up : Int → Option HNItem) (now storyID : Int)
        (kids : List Int) (db : DB) (cid : Int),
        commentExistsQ db cid = true →
        cid ∉ (fetchComments fuel up now storyID kids db).2) := by
  intro h
  have hmem : (2 : Int) ∈ (fetchComments 1 (fun _ => some exCommentItem) 0 1 [2] exCommentDB).2 := by
    have he : (fetchComments 1 (fun _ => some exCommentItem) 0 1 [2] exCommentDB).2 =
        fetchedIDs 1 (fun _ => some exCommentItem) [2] := by
      rw [fetchComments, if_neg (by decide)]
      exact (fetched_spec 1).1 _ 0 1 [2] _
    rw [he]
    simp [fetchedIDs]
  exact h 1 (fun _ => some exCommentItem) 0 1 [2] exCommentDB 2 (by decide) hmem

/-- C3 (amended): a re-fetch re-walks every branch upstream returns,
requesting already-present comment IDs again (the existence probe of
CommentStore is never consulted): the requested-ID list is a function
of the upstream responses alone, independent of the store contents,
and the requested list always starts with the child IDs passed in;
already-present rows are simply overwritten by the upsert. -/
theorem C3_refetch_walks_every_branch (fuel : Nat) (up : Int → Option HNItem)
    (now storyID : Int) (kids : List Int) (db db' : DB) :
    ((fetchComments fuel up now storyID kids db).2 =
      (fetchComments fuel up now storyID kids db').2) ∧
    (∃ rest, (fetchComments (fuel + 1) up now storyID kids db).2 = kids ++ rest) := by
  constructor
  · by_cases hk : kids.isEmpty
    · rw [fetchComments, fetchComments, if_pos hk, if_pos hk]
    · rw [fetchComments, fetchComments, if_neg hk, if_neg hk,
        (fetched_spec fuel).1 up now storyID kids db,
        (fetched_spec fuel).1 up now storyID kids db']
  · by_cases hk : kids.isEmpty
    · refine ⟨[], ?_⟩
      rw [fetchComments, if_pos hk, List.isEmpty_iff.mp hk]
      rfl
    · refine ⟨walkFetched fuel up (kids.map up), ?_⟩
      rw [fetchComments, if_neg hk, (fetched_spec (fuel + 1)).1 up now storyID kids db]
      rw [fetchedIDs]

/-! ## Poller (server/worker/poller.go)

poll is embedded as a pure function of: the comment-walk fuel, the
upstream client (TopStories outcome and per-item GetItem), the
extraction service, time.Now, the cancellation signal, the previous
TopList and the store. ctx.Err() is observed at the top of each loop
iteration; iteration i of the cycle (its index in topIDs) is cancelled
once the signal has fired, modelled by an optional first-cancelled
index. Ranker.ComputeAll only rewrites the rankings table (computeAll
above) and the trailing Broker.Publish is a broker operation (publish
above) carrying the updated-ID list, so PollResult returns the store,
the new TopList, the recorded rank pairs and the updated IDs. -/

/-- ctx.Err() != nil check at the top of loop iteration i. -/
def cancelledAt (cancelAt : Option Nat) (i : Nat) : Bool :=
  match cancelAt with
  | none => false
  | some c => decide (c ≤ i)

/-- GetItems view of the client: per-item failures become nil entries. -/
def batchOf (up : Int → Except Unit (Option HNItem)) : Int → Option HNItem :=
  fun i =>
    match up i with
    | .error _ => none
    | .ok o => o

/-- Body of FetchStoryWithComments once upstream returned a real item:
remember whether the story is new, upsert it, walk its comment tree
(failures logged, not fatal), extract the article when the story is new
and carries a URL. -/
def fetchSWCbody (fuel : Nat) (up : Int → Except Unit (Option HNItem))
    (ext : String → Except Unit ExtractedArticle) (now : Int)
    (rank : Option Int) (db : DB) (item : HNItem) : DB :=
  let isNew := (getStoryByID db item.id).isNone
  let db1 := upsertStory db (storyFromItem item now rank)
  let db2 :=
    if item.kids.isEmpty then db1
    else (fetchComments fuel (batchOf up) now item.id item.kids db1).1
  if isNew && !(item.url == "") then extractArticle (ext item.url) now item.id db2
  else db2

/-- FetchStoryWithComments: fetch the item; a nil or zero-ID upstream
record is a no-op, not an error; otherwise run the fetch body. -/
def fetchStoryWithComments (fuel : Nat) (up : Int → Except Unit (Option HNItem))
    (ext : String → Except Unit ExtractedArticle) (now id : Int)
    (rank : Option Int) (db : DB) : Except Unit DB :=
  match up id with
  | .error e => .error e
  | .ok none => .ok db
  | .ok (some item) =>
    if item.id = 0 then .ok db
    else .ok (fetchSWCbody fuel up ext now rank db item)

/-- Outcome of one fetch loop of the poll cycle. -/
structure PhaseRes where
  db : DB
  pairs : List RankPair
  updated : List Int
  aborted : Bool

/-- One fetch loop of poll: items carry their topIDs index; the
cancellation check runs before each fetch; a failed fetch is skipped;
a successful fetch records the (ID, index+1) rank pair and the ID. -/
def runPhase (fetchFn : Int → DB → Except Unit DB) (cancelAt : Option Nat) :
    DB → List RankPair → List Int → List (Nat × Int) → PhaseRes
  | db, pairs, upd, [] => ⟨db, pairs, upd, false⟩
  | db, pairs, upd, (i, id) :: rest =>
    if cancelledAt cancelAt i then ⟨db, pairs, upd, true⟩
    else
      match fetchFn id db with
      | .error _ => runPhase fetchFn cancelAt db pairs upd rest
      | .ok db' =>
        runPhase fetchFn cancelAt db' (pairs ++ [⟨id, (i : Int) + 1⟩])
          (upd ++ [id]) rest

/-- Observable outcome of one poll cycle. -/
structure PollResult where
  db : DB
  topList : List Int
  rankPairs : List RankPair
  updatedIDs : List Int

/-- Rank-swap step of poll (lines 111-118 of poller.go): swap only
when at least 10 pairs were recorded, then assemble the cycle result
(TopList already replaced, updated IDs carried to the trailing
Broker.Publish). -/
def pollSwap (topIDs : List Int) (r2 : PhaseRes) : PollResult :=
  ⟨if 10 ≤ r2.pairs.length then swapRanks r2.db r2.pairs else r2.db,
    topIDs, r2.pairs, r2.updated⟩

/-- Control flow after the eager loop: cancellation during the eager
loop returns from the cycle at once (no swap); otherwise the lazy loop
(metadata-only fetch of the remaining IDs) runs, a cancellation there
only breaks to the swap step. -/
def pollAfterEager (up : Int → Except Unit (Option HNItem)) (now : Int)
    (cancelAt : Option Nat) (topIDs : List Int) (r1 : PhaseRes) : PollResult :=
  if r1.aborted then ⟨r1.db, topIDs, r1.pairs, r1.updated⟩
  else
    pollSwap topIDs
      (runPhase (fun id d => fetchStory up now id none d) cancelAt
        r1.db r1.pairs r1.updated
        ((topIDs.enum).drop (min 60 topIDs.length)))

/-- Poll cycle once TopStories succeeded: replace the TopList with
topIDs immediately, eagerly fetch the first min(60, n) IDs with
story+comments+article, then continue with the lazy phase and swap. -/
def pollWithTop (fuel : Nat) (up : Int → Except Unit (Option HNItem))
    (ext : String → Except Unit ExtractedArticle) (now : Int)
    (cancelAt : Option Nat) (topIDs : List Int) (db : DB) : PollResult :=
  pollAfterEager up now cancelAt topIDs
    (runPhase (fun id d => fetchStoryWithComments fuel up ext now id none d)
      cancelAt db [] [] ((topIDs.enum).take (min 60 topIDs.length)))

/-- Poller.poll: a TopStories failure aborts the cycle with nothing
changed (the previous TopList survives); otherwise run the cycle. -/
def poll (fuel : Nat) (up : Int → Except Unit (Option HNItem))
    (ext : String → Except Unit ExtractedArticle) (now : Int)
    (cancelAt : Option Nat) (topRes : Except Unit (List Int))
    (prevTop : List Int) (db : DB) : PollResult :=
  match topRes with
  | .error _ => ⟨db, prevTop, [], []⟩
  | .ok topIDs => pollWithTop fuel up ext now cancelAt topIDs db

theorem find?_map_idpres (g : Story → Story) (hg : ∀ s, (g s).id = s.id)
    (l : List Story) (x : Int) :
    (l.map g).find? (fun s => s.id = x) = (l.find? (fun s => s.id = x)).map g := by
  induction l with
  | nil => rfl
  | cons s rest ih =>
    by_cases h : s.id = x
    · simp [List.find?_cons, hg, h]
    · simp [List.find?_cons, hg, h, ih]

theorem storyRank_eq_none_of_absent (db : DB) (x : Int)
    (h : (getStoryByID db x).isSome = false) : storyRank db x = none := by
  rw [storyRank]
  cases hf : getStoryByID db x with
  | none => rfl
  | some s => rw [hf] at h; cases h

theorem getStoryByID_map (g : Story → Story) (hg : ∀ s, (g s).id = s.id)
    (db : DB) (x : Int) :
    getStoryByID { db with stories := db.stories.map g } x =
      (getStoryByID db x).map g := by
  unfold getStoryByID
  exact find?_map_idpres g hg db.stories x

/-- Row transformer of ClearRanks. -/
def clearRankG : Story → Story := fun s => { s with rank := none }

/-- Row transformer of SetRank. -/
def setRankG (r id : Int) : Story → Story :=
  fun s => if s.id = id then { s with rank := some r } else s

theorem clearRanks_as_map (db : DB) :
    clearRanks db = { db with stories := db.stories.map clearRankG } := rfl

theorem setRank_as_map (db : DB) (r id : Int) :
    setRank db r id = { db with stories := db.stories.map (setRankG r id) } := rfl

theorem clearRankG_id (s : Story) : (clearRankG s).id = s.id := rfl

theorem setRankG_id (r id : Int) (s : Story) : (setRankG r id s).id = s.id := by
  unfold setRankG
  by_cases h : s.id = id <;> simp [h]

theorem clearRanks_present (db : DB) (x : Int) :
    (getStoryByID (clearRanks db) x).isSome = (getStoryByID db x).isSome := by
  rw [clearRanks_as_map, getStoryByID_map clearRankG clearRankG_id]
  cases getStoryByID db x <;> rfl

theorem clearRanks_rank (db : DB) (x : Int) : storyRank (clearRanks db) x = none := by
  rw [storyRank, clearRanks_as_map, getStoryByID_map clearRankG clearRankG_id]
  cases getStoryByID db x <;> rfl

theorem setRank_present (db : DB) (r id x : Int) :
    (getStoryByID (setRank db r id) x).isSome = (getStoryByID db x).isSome := by
  rw [setRank_as_map, getStoryByID_map (setRankG r id) (setRankG_id r id)]
  cases getStoryByID db x <;> rfl

theorem setRank_rank_self (db : DB) (r id : Int) :
    storyRank (setRank db r id) id =
      if (getStoryByID db id).isSome then some r else none := by
  rw [storyRank, setRank_as_map, getStoryByID_map (setRankG r id) (setRankG_id r id)]
  cases hf : getStoryByID db id with
  | none => rfl
  | some s =>
    have hs : s.id = id := by
      have := List.find?_some hf
      simpa using this
    show (setRankG r id s).rank = _
    unfold setRankG
    rw [if_pos hs]
    rfl

theorem setRank_rank_other (db : DB) (r id x : Int) (hx : x ≠ id) :
    storyRank (setRank db r id) x = storyRank db x := by
  rw [storyRank, storyRank, setRank_as_map,
    getStoryByID_map (setRankG r id) (setRankG_id r id)]
  cases hf : getStoryByID db x with
  | none => rfl
  | some s =>
    have hs : s.id = x := by
      have := List.find?_some hf
      simpa using this
    show (setRankG r id s).rank = s.rank
    unfold setRankG
    rw [if_neg (by rw [hs]; exact hx)]

theorem foldl_setRank_present (pairs : List RankPair) (db : DB) (x : Int) :
    (getStoryByID (pairs.foldl (fun d p => setRank d p.rank p.id) db) x).isSome =
      (getStoryByID db x).isSome := by
  induction pairs generalizing db with
  | nil => rfl
  | cons p rest ih =>
    rw [List.foldl_cons, ih, setRank_present]

theorem foldl_setRank_rank (pairs : List RankPair) (db : DB) (x : Int)
    (hnd : (pairs.map RankPair.id).Nodup) :
    storyRank (pairs.foldl (fun d p => setRank d p.rank p.id) db) x =
      if x ∈ pairs.map RankPair.id ∧ (getStoryByID db x).isSome
      then (pairs.find? (fun p => p.id = x)).map RankPair.rank
      else storyRank db x := by
  induction pairs generalizing db with
  | nil => simp
  | cons p rest ih =>
    rw [List.map_cons, List.nodup_cons] at hnd
    rw [List.foldl_cons, ih (setRank db p.rank p.id) hnd.2]
    by_cases hx : x = p.id
    · subst hx
      rw [if_neg (fun hc => hnd.1 hc.1), setRank_rank_self]
      by_cases hpres : (getStoryByID db p.id).isSome
      · rw [if_pos hpres, if_pos ⟨by simp, hpres⟩,
          List.find?_cons_of_pos _ (by simp)]
        rfl
      · have hfalse : (getStoryByID db p.id).isSome = false := by
          revert hpres
          cases (getStoryByID db p.id).isSome <;> simp
        rw [if_neg hpres, if_neg (fun hc => hpres hc.2),
          storyRank_eq_none_of_absent db p.id hfalse]
    · rw [setRank_present, setRank_rank_other db p.rank p.id x hx]
      have hne : ¬ p.id = x := fun h => hx h.symm
      have hfind : (p :: rest).find? (fun q => q.id = x) =
          rest.find? (fun q => q.id = x) :=
        List.find?_cons_of_neg _ (by simpa using hne)
      have hmem : (x ∈ (p :: rest).map RankPair.id) ↔ x ∈ rest.map RankPair.id := by
        simp only [List.map_cons, List.mem_cons]
        exact or_iff_right hx
      by_cases hin : x ∈ rest.map RankPair.id ∧ (getStoryByID db x).isSome
      · rw [if_pos hin, if_pos ⟨hmem.mpr hin.1, hin.2⟩, hfind]
      · rw [if_neg hin, if_neg (fun hc => hin ⟨hmem.mp hc.1, hc.2⟩)]

/-- SwapRanks leaves the rank column equal to the pair list lookup for
rows that exist and no rank anywhere else. -/
theorem swapRanks_spec (db : DB) (pairs : List RankPair)
    (hnd : (pairs.map RankPair.id).Nodup) (x : Int) :
    storyRank (swapRanks db pairs) x =
      if (getStoryByID (swapRanks db pairs) x).isSome
      then (pairs.find? (fun p => p.id = x)).map RankPair.rank
      else none := by
  have hpres : (getStoryByID (swapRanks db pairs) x).isSome =
      (getStoryByID db x).isSome := by
    rw [swapRanks, foldl_setRank_present, clearRanks_present]
  rw [swapRanks, foldl_setRank_rank pairs (clearRanks db) x hnd, ← swapRanks,
    hpres, clearRanks_present]
  by_cases hin : x ∈ pairs.map RankPair.id
  · by_cases hp : (getStoryByID db x).isSome
    · rw [if_pos ⟨hin, hp⟩, if_pos hp]
    · rw [if_neg (by intro hc; exact hp hc.2), if_neg hp, clearRanks_rank]
  · have hfind : pairs.find? (fun p => p.id = x) = none := by
      refine List.find?_eq_none.mpr ?_
      intro p hp hc
      exact hin (List.mem_map.mpr ⟨p, hp, by simpa using hc⟩)
    rw [if_neg (by intro hc; exact hin hc.1), clearRanks_rank, hfind]
    cases hpr : (getStoryByID db x).isSome <;> simp

theorem upsertStory_rank_of_none (db : DB) (st : Story) (hst : st.rank = none)
    (x : Int) : storyRank (upsertStory db st) x = storyRank db x := by
  show ((upsertStoryList db.stories st).find? (fun q => q.id = x)).bind Story.rank =
    (db.stories.find? (fun q => q.id = x)).bind Story.rank
  induction db.stories with
  | nil =>
    by_cases h : st.id = x
    · simp [upsertStoryList, List.find?_cons, h, hst]
    · simp [upsertStoryList, List.find?_cons, h]
  | cons s rest ih =>
    by_cases h1 : s.id = st.id
    · have hrowid : (upsertStoryRow s st).id = s.id := by
        rw [upsertStoryRow_id, h1]
      by_cases h2 : s.id = x
      · rw [upsertStoryList, if_pos h1,
          List.find?_cons_of_pos _ (by simp [hrowid, h2]),
          List.find?_cons_of_pos _ (by simp [h2])]
        show (upsertStoryRow s st).rank = s.rank
        rw [upsertStoryRow, hst]
      · rw [upsertStoryList, if_pos h1,
          List.find?_cons_of_neg _ (by simp [hrowid, h2]),
          List.find?_cons_of_neg _ (by simp [h2])]
    · by_cases h2 : s.id = x
      · rw [upsertStoryList, if_neg h1,
          List.find?_cons_of_pos _ (by simp [h2]),
          List.find?_cons_of_pos _ (by simp [h2])]
      · rw [upsertStoryList, if_neg h1,
          List.find?_cons_of_neg _ (by simp [h2]),
          List.find?_cons_of_neg _ (by simp [h2])]
        exact ih

theorem storyRank_congr (db db' : DB) (h : db.stories = db'.stories) (x : Int) :
    storyRank db x = storyRank db' x := by
  rw [storyRank, storyRank, getStoryByID, getStoryByID, h]

theorem fetchStory_rank_preserved (up : Int → Except Unit (Option HNItem))
    (now id : Int) (db db' : DB)
    (h : fetchStory up now id none db = .ok db') (x : Int) :
    storyRank db' x = storyRank db x := by
  rw [fetchStory] at h
  split at h
  · cases h
  · injection h with h
    rw [← h]
  · split at h
    · injection h with h
      rw [← h]
    · injection h with h
      rw [← h]
      exact upsertStory_rank_of_none db _ rfl x

theorem extractArticle_stories (result : Except Unit ExtractedArticle)
    (now storyID : Int) (db : DB) :
    (extractArticle result now storyID db).stories = db.stories := by
  cases result <;> rfl

/-- Neither half of the comment walk touches the stories table. -/
theorem walk_stories (fuel : Nat) :
    (∀ (up : Int → Option HNItem) (now storyID : Int) (kids : List Int) (db : DB),
      ((fetchCommentsRec fuel up now storyID kids db).1).stories = db.stories) ∧
    (∀ (up : Int → Option HNItem) (now storyID : Int)
      (items : List (Option HNItem)) (db : DB),
      ((walkItems fuel up now storyID items db).1).stories = db.stories) := by
  induction fuel with
  | zero =>
    have hrec : ∀ (up : Int → Option HNItem) (now storyID : Int) (kids : List Int)
        (db : DB),
        ((fetchCommentsRec 0 up now storyID kids db).1).stories = db.stories := by
      intro up now storyID kids db
      simp [fetchCommentsRec]
    refine ⟨hrec, ?_⟩
    intro up now storyID items
    induction items with
    | nil => intro db; simp [walkItems]
    | cons o rest ih =>
      intro db
      cases o with
      | none =>
        simp only [walkItems]
        exact ih db
      | some item =>
        simp only [walkItems]
        by_cases hk : item.kids.isEmpty
        · simp only [if_pos hk]
          rw [ih]
          rfl
        · simp only [if_neg hk]
          rw [ih, hrec]
          rfl
  | succ fuel ih =>
    have hrec : ∀ (up : Int → Option HNItem) (now storyID : Int) (kids : List Int)
        (db : DB),
        ((fetchCommentsRec (fuel + 1) up now storyID kids db).1).stories = db.stories := by
      intro up now storyID kids db
      simp only [fetchCommentsRec]
      rw [ih.2]
    refine ⟨hrec, ?_⟩
    intro up now storyID items
    induction items with
    | nil => intro db; simp [walkItems]
    | cons o rest ih2 =>
      intro db
      cases o with
      | none =>
        simp only [walkItems]
        exact ih2 db
      | some item =>
        simp only [walkItems]
        by_cases hk : item.kids.isEmpty
        · simp only [if_pos hk]
          rw [ih2]
          rfl
        · simp only [if_neg hk]
          rw [ih2, hrec]
          rfl

theorem fetchComments_stories (fuel : Nat) (up : Int → Option HNItem)
    (now storyID : Int) (kids : List Int) (db : DB) :
    ((fetchComments fuel up now storyID kids db).1).stories = db.stories := by
  rw [fetchComments]
  by_cases hk : kids.isEmpty
  · rw [if_pos hk]
  · rw [if_neg hk]
    exact (walk_stories fuel).1 up now storyID kids db

theorem fetchSWCbody_stories (fuel : Nat) (up : Int → Except Unit (Option HNItem))
    (ext : String → Except Unit ExtractedArticle) (now : Int)
    (rank : Option Int) (db : DB) (item : HNItem) :
    (fetchSWCbody fuel up ext now rank db item).stories =
      (upsertStory db (storyFromItem item now rank)).stories := by
  simp only [fetchSWCbody]
  by_cases ha : (getStoryByID db item.id).isNone && !(item.url == "")
  · rw [if_pos ha, extractArticle_stories]
    by_cases hk : item.kids.isEmpty
    · rw [if_pos hk]
    · rw [if_neg hk, fetchComments_stories]
  · rw [if_neg ha]
    by_cases hk : item.kids.isEmpty
    · rw [if_pos hk]
    · rw [if_neg hk, fetchComments_stories]

theorem fetchSWC_rank_preserved (fuel : Nat) (up : Int → Except Unit (Option HNItem))
    (ext : String → Except Unit ExtractedArticle) (now id : Int) (db db' : DB)
    (h : fetchStoryWithComments fuel up ext now id none db = .ok db') (x : Int) :
    storyRank db' x = storyRank db x := by
  rw [fetchStoryWithComments] at h
  split at h
  · cases h
  · injection h with h
    rw [← h]
  · split at h
    · injection h with h
      rw [← h]
    · injection h with h
      rw [← h]
      rw [storyRank_congr _ _ (fetchSWCbody_stories fuel up ext now none db _) x]
      exact upsertStory_rank_of_none db _ rfl x

theorem runPhase_rank_preserved (f : Int → DB → Except Unit DB) (c : Option Nat)
    (hf : ∀ id db db', f id db = .ok db' → ∀ x, storyRank db' x = storyRank db x)
    (items : List (Nat × Int)) :
    ∀ (db : DB) (pairs : List RankPair) (upd : List Int) (x : Int),
      storyRank (runPhase f c db pairs upd items).db x = storyRank db x := by
  induction items with
  | nil => intro db pairs upd x; rfl
  | cons pr rest ih =>
    intro db pairs upd x
    obtain ⟨i, id⟩ := pr
    by_cases hc : cancelledAt c i
    · simp only [runPhase, if_pos hc]
    · cases hfe : f id db with
      | error e =>
        simp only [runPhase, if_neg hc, hfe]
        exact ih db pairs upd x
      | ok db' =>
        simp only [runPhase, if_neg hc, hfe]
        rw [ih db' _ _ x]
        exact hf id db db' hfe x

theorem runPhase_pairs (f : Int → DB → Except Unit DB) (c : Option Nat)
    (items : List (Nat × Int)) :
    ∀ (db : DB) (pairs : List RankPair) (upd : List Int),
      ∃ ext, (runPhase f c db pairs upd items).pairs = pairs ++ ext ∧
        List.Sublist (ext.map RankPair.id) (items.map Prod.snd) ∧
        ∀ p ∈ ext, ∃ i id, (i, id) ∈ items ∧ cancelledAt c i = false ∧
          p = ⟨id, (i : Int) + 1⟩ := by
  induction items with
  | nil =>
    intro db pairs upd
    exact ⟨[], by simp [runPhase], by simp, by simp⟩
  | cons pr rest ih =>
    intro db pairs upd
    obtain ⟨i, id⟩ := pr
    by_cases hc : cancelledAt c i
    · refine ⟨[], ?_, by simp, by simp⟩
      simp [runPhase, hc]
    · have hcf : cancelledAt c i = false := by
        revert hc
        cases cancelledAt c i <;> simp
      cases hfe : f id db with
      | error e =>
        obtain ⟨ext, h1, h2, h3⟩ := ih db pairs upd
        refine ⟨ext, ?_, ?_, ?_⟩
        · simp only [runPhase, if_neg hc, hfe]
          exact h1
        · simp only [List.map_cons]
          exact List.Sublist.cons _ h2
        · intro p hp
          obtain ⟨i', id', hmem, hcf', hpe⟩ := h3 p hp
          exact ⟨i', id', List.mem_cons_of_mem _ hmem, hcf', hpe⟩
      | ok db' =>
        obtain ⟨ext, h1, h2, h3⟩ :=
          ih db' (pairs ++ [⟨id, (i : Int) + 1⟩]) (upd ++ [id])
        refine ⟨⟨id, (i : Int) + 1⟩ :: ext, ?_, ?_, ?_⟩
        · simp only [runPhase, if_neg hc, hfe]
          rw [h1, List.append_assoc]
          rfl
        · simp only [List.map_cons]
          exact List.Sublist.cons₂ _ h2
        · intro p hp
          rcases List.mem_cons.mp hp with rfl | hp'
          · exact ⟨i, id, List.mem_cons_self _ _, hcf, rfl⟩
          · obtain ⟨i', id', hmem, hcf', hpe⟩ := h3 p hp'
            exact ⟨i', id', List.mem_cons_of_mem _ hmem, hcf', hpe⟩

theorem runPhase_not_aborted (f : Int → DB → Except Unit DB) (c : Option Nat)
    (items : List (Nat × Int)) :
    ∀ (db : DB) (pairs : List RankPair) (upd : List Int),
      (∀ pr ∈ items, cancelledAt c pr.1 = false) →
      (runPhase f c db pairs upd items).aborted = false := by
  induction items with
  | nil => intro db pairs upd _; rfl
  | cons pr rest ih =>
    intro db pairs upd h
    obtain ⟨i, id⟩ := pr
    have hc : cancelledAt c i = false := h (i, id) (List.mem_cons_self _ _)
    have hrest : ∀ pr ∈ rest, cancelledAt c pr.1 = false :=
      fun pr hpr => h pr (List.mem_cons_of_mem _ hpr)
    cases hfe : f id db with
    | error e =>
      simp only [runPhase, hc, Bool.false_eq_true, if_false, hfe]
      exact ih db pairs upd hrest
    | ok db' =>
      simp only [runPhase, hc, Bool.false_eq_true, if_false, hfe]
      exact ih db' _ _ hrest

theorem runPhase_aborted_of_mem (f : Int → DB → Except Unit DB) (c : Option Nat)
    (items : List (Nat × Int)) :
    ∀ (db : DB) (pairs : List RankPair) (upd : List Int),
      (∃ pr ∈ items, cancelledAt c pr.1 = true) →
      (runPhase f c db pairs upd items).aborted = true := by
  induction items with
  | nil =>
    intro db pairs upd h
    obtain ⟨pr, hpr, _⟩ := h
    cases hpr
  | cons pr0 rest ih =>
    intro db pairs upd h
    obtain ⟨i, id⟩ := pr0
    by_cases hc : cancelledAt c i
    · simp [runPhase, hc]
    · obtain ⟨pr, hpr, hprc⟩ := h
      rcases List.mem_cons.mp hpr with rfl | hpr'
      · exact absurd hprc hc
      · cases hfe : f id db with
        | error e =>
          simp only [runPhase, if_neg hc, hfe]
          exact ih db pairs upd ⟨pr, hpr', hprc⟩
        | ok db' =>
          simp only [runPhase, if_neg hc, hfe]
          exact ih db' _ _ ⟨pr, hpr', hprc⟩

theorem enum_take_fst_lt (l : List Int) (e : Nat) (pr : Nat × Int)
    (h : pr ∈ (l.enum).take e) : pr.1 < e := by
  obtain ⟨j, hj⟩ := List.mem_iff_get?.mp h
  have hjl : j < ((l.enum).take e).length := by
    by_contra hge
    rw [List.get?_eq_none.mpr (Nat.le_of_not_lt hge)] at hj
    cases hj
  have hje : j < e := lt_of_lt_of_le hjl (by rw [List.length_take]; exact min_le_left _ _)
  rw [List.get?_take hje, List.get?_enum] at hj
  cases hg : l.get? j with
  | none => rw [hg] at hj; cases hj
  | some a =>
    rw [hg] at hj
    injection hj with hj
    rw [← hj]
    exact hje

/-- Full characterization of a poll cycle whose eager phase is never
cancelled: recorded pairs carry 1-based topIDs positions of
not-yet-cancelled iterations and have distinct IDs; with at least 10
pairs the swap leaves the rank column equal to the pair lookup for
existing rows and null elsewhere; with fewer the rank column is
untouched. -/
theorem pollWithTop_spec (fuel : Nat) (up : Int → Except Unit (Option HNItem))
    (ext : String → Except Unit ExtractedArticle) (now : Int)
    (cancelAt : Option Nat) (topIDs : List Int) (db : DB)
    (htop : topIDs.Nodup)
    (hno : ∀ i, i < min 60 topIDs.length → cancelledAt cancelAt i = false) :
    (∀ p ∈ (pollWithTop fuel up ext now cancelAt topIDs db).rankPairs,
      topIDs.get? (p.rank - 1).toNat = some p.id ∧
      cancelledAt cancelAt (p.rank - 1).toNat = false) ∧
    ((pollWithTop fuel up ext now cancelAt topIDs db).rankPairs.map RankPair.id).Nodup ∧
    (10 ≤ (pollWithTop fuel up ext now cancelAt topIDs db).rankPairs.length →
      ∀ x, storyRank (pollWithTop fuel up ext now cancelAt topIDs db).db x =
        if (getStoryByID (pollWithTop fuel up ext now cancelAt topIDs db).db x).isSome
        then ((pollWithTop fuel up ext now cancelAt topIDs db).rankPairs.find?
          (fun p => p.id = x)).map RankPair.rank
        else none) ∧
    ((pollWithTop fuel up ext now cancelAt topIDs db).rankPairs.length < 10 →
      ∀ x, storyRank (pollWithTop fuel up ext now cancelAt topIDs db).db x =
        storyRank db x) := by
  unfold pollWithTop pollAfterEager
  set r1 := runPhase (fun id d => fetchStoryWithComments fuel up ext now id none d)
    cancelAt db [] [] ((topIDs.enum).take (min 60 topIDs.length)) with hr1
  have habort : r1.aborted = false := by
    rw [hr1]
    apply runPhase_not_aborted
    intro pr hpr
    exact hno pr.1 (enum_take_fst_lt topIDs _ pr hpr)
  simp only [habort, Bool.false_eq_true, if_false]
  unfold pollSwap
  set r2 := runPhase (fun id d => fetchStory up now id none d) cancelAt
    r1.db r1.pairs r1.updated ((topIDs.enum).drop (min 60 topIDs.length)) with hr2
  dsimp only
  have h1 := runPhase_pairs
    (fun id d => fetchStoryWithComments fuel up ext now id none d)
    cancelAt ((topIDs.enum).take (min 60 topIDs.length)) db [] []
  rw [← hr1] at h1
  obtain ⟨ext1, he1, hs1, hm1⟩ := h1
  have h2 := runPhase_pairs (fun id d => fetchStory up now id none d)
    cancelAt ((topIDs.enum).drop (min 60 topIDs.length)) r1.db r1.pairs r1.updated
  rw [← hr2] at h2
  obtain ⟨ext2, he2, hs2, hm2⟩ := h2
  have hpairs : r2.pairs = ext1 ++ ext2 := by
    rw [he2, he1]
    simp
  have hids : List.Sublist (r2.pairs.map RankPair.id) topIDs := by
    rw [hpairs, List.map_append]
    have happ := List.Sublist.append hs1 hs2
    rw [List.map_take, List.map_drop, List.enum_map_snd, List.take_append_drop]
      at happ
    exact happ
  have hnodup : (r2.pairs.map RankPair.id).Nodup := htop.sublist hids
  have hpos : ∀ p ∈ r2.pairs,
      topIDs.get? (p.rank - 1).toNat = some p.id ∧
      cancelledAt cancelAt (p.rank - 1).toNat = false := by
    intro p hp
    rw [hpairs] at hp
    have key : ∀ (i : Nat) (id : Int), (i, id) ∈ topIDs.enum →
        cancelledAt cancelAt i = false →
        topIDs.get? (((i : Int) + 1 - 1)).toNat = some id ∧
        cancelledAt cancelAt (((i : Int) + 1 - 1)).toNat = false := by
      intro i id hmem hcf
      have hti : (((i : Int) + 1 - 1)).toNat = i := by simp
      rw [hti]
      exact ⟨List.mk_mem_enum_iff_get?.mp hmem, hcf⟩
    rcases List.mem_append.mp hp with hp1 | hp2
    · obtain ⟨i, id, hmem, hcf, rfl⟩ := hm1 p hp1
      exact key i id ((List.take_sublist _ _).mem hmem) hcf
    · obtain ⟨i, id, hmem, hcf, rfl⟩ := hm2 p hp2
      exact key i id ((List.drop_sublist _ _).mem hmem) hcf
  refine ⟨hpos, hnodup, ?_, ?_⟩
  · intro h10 x
    rw [if_pos h10]
    exact swapRanks_spec r2.db r2.pairs hnodup x
  · intro hlt x
    rw [if_neg (by omega)]
    have t2 : storyRank r2.db x = storyRank r1.db x := by
      rw [hr2]
      exact runPhase_rank_preserved _ cancelAt
        (fun id d1 d2 h x => fetchStory_rank_preserved up now id d1 d2 h x)
        _ r1.db r1.pairs r1.updated x
    have t1 : storyRank r1.db x = storyRank db x := by
      rw [hr1]
      exact runPhase_rank_preserved _ cancelAt
        (fun id d1 d2 h x => fetchSWC_rank_preserved fuel up ext now id d1 d2 h x)
        _ db [] [] x
    rw [t2, t1]

/-- C1 (amended): for an uncancelled poll cycle recording at least 10
pairs, the rank swap leaves exactly those recorded IDs whose story row
exists in the store ranked, each at its 1-based poll position; a
recorded ID whose row is absent (its upstream record was empty and it
was never stored) stays absent, and no other item has a non-null
rank. For fewer than 10 recorded pairs every item's rank is left
unchanged. -/
theorem C1_poll_rank_swap (fuel : Nat) (up : Int → Except Unit (Option HNItem))
    (ext : String → Except Unit ExtractedArticle) (now : Int)
    (topIDs prevTop : List Int) (db : DB) (htop : topIDs.Nodup)
    (R : PollResult) (hR : R = poll fuel up ext now none (.ok topIDs) prevTop db) :
    (10 ≤ R.rankPairs.length →
      (∀ p ∈ R.rankPairs, topIDs.get? (p.rank - 1).toNat = some p.id) ∧
      ∀ x, storyRank R.db x =
        if (getStoryByID R.db x).isSome
        then (R.rankPairs.find? (fun p => p.id = x)).map RankPair.rank
        else none) ∧
    (R.rankPairs.length < 10 → ∀ x, storyRank R.db x = storyRank db x) := by
  obtain ⟨hpos, _, hswap, hnoswap⟩ :=
    pollWithTop_spec fuel up ext now none topIDs db htop (fun i _ => rfl)
  subst hR
  exact ⟨fun h10 => ⟨fun p hp => (hpos p hp).1, hswap h10⟩, hnoswap⟩

/-- C10: with the cancellation signal firing first at cycle index c.
If c is past the eager prefix (cancellation during the lazy phase) and
at least 10 pairs were recorded, the rank swap still executes using
only the pairs recorded before cancellation (each pair index is below
c), so every item not among them ends the cycle with a null rank and
every existing recorded row carries its poll position. If c falls
inside the eager prefix, the cycle returns before any swap and every
rank is left unchanged. -/
theorem C10_poll_cancellation (fuel : Nat) (up : Int → Except Unit (Option HNItem))
    (ext : String → Except Unit ExtractedArticle) (now : Int)
    (topIDs prevTop : List Int) (db : DB) (c : Nat) (htop : topIDs.Nodup)
    (R : PollResult)
    (hR : R = poll fuel up ext now (some c) (.ok topIDs) prevTop db) :
    (min 60 topIDs.length ≤ c →
      10 ≤ R.rankPairs.length →
      (∀ p ∈ R.rankPairs, (p.rank - 1).toNat < c ∧
        topIDs.get? (p.rank - 1).toNat = some p.id) ∧
      (∀ x, storyRank R.db x =
        if (getStoryByID R.db x).isSome
        then (R.rankPairs.find? (fun p => p.id = x)).map RankPair.rank
        else none)) ∧
    (c < min 60 topIDs.length →
      ∀ x, storyRank R.db x = storyRank db x) := by
  constructor
  · intro hce h10
    obtain ⟨hpos, _, hswap, _⟩ :=
      pollWithTop_spec fuel up ext now (some c) topIDs db htop
        (fun i hi => by
          simp only [cancelledAt, decide_eq_false_iff_not]
          omega)
    subst hR
    refine ⟨fun p hp => ⟨?_, (hpos p hp).1⟩, hswap h10⟩
    have hcf := (hpos p hp).2
    simp only [cancelledAt, decide_eq_false_iff_not] at hcf
    omega
  · intro hclt x
    have hlen : c < topIDs.length := lt_of_lt_of_le hclt (min_le_right _ _)
    have habort : (runPhase
        (fun id d => fetchStoryWithComments fuel up ext now id none d) (some c)
        db [] [] ((topIDs.enum).take (min 60 topIDs.length))).aborted = true := by
      apply runPhase_aborted_of_mem
      refine ⟨(c, topIDs.get ⟨c, hlen⟩), ?_, ?_⟩
      · apply List.get?_mem
        rw [List.get?_take hclt, List.get?_enum, List.get?_eq_get hlen]
        rfl
      · simp [cancelledAt]
    subst hR
    show storyRank (pollWithTop fuel up ext now (some c) topIDs db).db x =
      storyRank db x
    unfold pollWithTop pollAfterEager
    rw [if_pos habort]
    exact runPhase_rank_preserved _ (some c)
      (fun id d1 d2 h x => fetchSWC_rank_preserved fuel up ext now id d1 d2 h x)
      _ db [] [] x

/-- Upstream item used by the concrete poll scenarios: no kids, no URL. -/
def pollItem (i : Int) : HNItem :=
  { id := i, itemType := "", author := "", time := 0, text := "", url := "",
    title := "", score := 0, descendants := 0, kids := [], parent := 0,
    dead := false, deleted := false }

/-- Upstream returning a record for every ID. -/
def upAllPresent : Int → Except Unit (Option HNItem) :=
  fun i => .ok (some (pollItem i))

/-- Upstream returning an empty (absent) record for ID 10 only. -/
def upAbsent10 : Int → Except Unit (Option HNItem) :=
  fun i => if i = 10 then .ok none else .ok (some (pollItem i))

/-- Extraction service that always fails (never reached here). -/
def extNever : String → Except Unit ExtractedArticle := fun _ => .error ()

/-- Empty store. -/
def emptyDB : DB := { stories := [], comments := [], articles := [] }

/-- Store holding story 1 with rank 7 from an earlier poll. -/
def rankedDB : DB :=
  { stories := [{ id := 1, title := "t", url := none, text := none, score := 5,
                  author := "a", time := 0, descendants := 0, itemType := "story",
                  fetchedAt := 0, rank := some 7, dead := false }],
    comments := [], articles := [] }

/-- C1 fails as stated: a poll over IDs 1..10 where upstream returns an
empty record for ID 10 records all 10 (ID, position) pairs (an absent
record is a successful no-op fetch), the swap runs, but ID 10 was never
stored, so SetRank updates no row for it: the recorded ID 10 ends the
cycle with no row and no rank, contradicting that exactly the recorded
IDs end ranked at their poll positions. -/
theorem C1_rank_swap_counterexample :
    10 ≤ (poll 1 upAbsent10 extNever 0 none
      (.ok [1, 2, 3, 4, 5, 6, 7, 8, 9, 10]) [] emptyDB).rankPairs.length ∧
    (⟨10, 10⟩ : RankPair) ∈ (poll 1 upAbsent10 extNever 0 none
      (.ok [1, 2, 3, 4, 5, 6, 7, 8, 9, 10]) [] emptyDB).rankPairs ∧
    getStoryByID (poll 1 upAbsent10 extNever 0 none
      (.ok [1, 2, 3, 4, 5, 6, 7, 8, 9, 10]) [] emptyDB).db 10 = none ∧
    storyRank (poll 1 upAbsent10 extNever 0 none
      (.ok [1, 2, 3, 4, 5, 6, 7, 8, 9, 10]) [] emptyDB).db 10 = none := by
  refine ⟨by decide, by decide, by decide, by decide⟩

theorem C1_poll_rank_swap_witness :
    storyRank (poll 1 upAllPresent extNever 0 none
      (.ok [1, 2, 3, 4, 5, 6, 7, 8, 9, 10]) [] emptyDB).db 3 = some 3 := by
  have h := C1_poll_rank_swap 1 upAllPresent extNever 0
    [1, 2, 3, 4, 5, 6, 7, 8, 9, 10] [] emptyDB (by decide) _ rfl
  rw [(h.1 (by decide)).2 3]
  decide

theorem C10_poll_cancellation_witness :
    storyRank (poll 1 upAllPresent extNever 0 (some 0) (.ok [1, 2, 3]) []
      rankedDB).db 1 = some 7 := by
  have h := C10_poll_cancellation 1 upAllPresent extNever 0 [1, 2, 3] []
    rankedDB 0 (by decide) _ rfl
  rw [h.2 (by decide) 1]
  decide

end HNClient
